import Mathlib

/-!
Shallow embedding of `src/Taquin.py`: a 3x3 sliding-tile puzzle (jeu de taquin)
and its best-first search solver.

The Python classes are modelled as follows.

* `Puzzle` (class `Puzzle`): `largeur` is `len(table[0])`, `table` the grid.
  Grids hold natural numbers (the program only ever stores values
  `0 .. n*n-1`).  `Puzzle.init` models `__init__`, which performs no
  validation and only fails (with an `IndexError`, modelled as `none`) when
  the grid has no first row.
* `Puzzle.est_resolu`, `Puzzle.actions`, `Puzzle.manhattan`, `Puzzle.move`
  (`_move`), `Puzzle.pstr` (`__str__`, via row-major iteration `__iter__`)
  are the corresponding methods.  Python's `table[i][j]` accesses are
  modelled with `getD` defaults; the program only indexes in bounds.
* `Noeud` is the search node: `puzzle`, `parent`, `action` and the cost `g`
  computed at construction time (`Noeud.init`).
* `resoudre` models `Solution.resoudre`: the queue is re-sorted by `f` with
  a stable sort each iteration (Python's `sorted` is stable; we use
  insertion sort, which realises exactly that order), the front node is
  popped, and fresh children are pushed at the front while their keys are
  added to the visited set `rs`.  The extra `Nat` argument is step fuel:
  `none` means the fuel ran out, `some none` models falling off the loop
  (Python returns `None`), `some (some path)` a returned path.
-/

abbrev Table := List (List Nat)

structure Puzzle where
  largeur : Nat
  table : Table
deriving DecidableEq, Repr

/-- Model of `Puzzle.__init__`: `self.largeur = len(table[0])` (an
`IndexError` on an empty grid, hence `none`), `self.table = table`.
No validation of any kind is performed. -/
def Puzzle.init : Table → Option Puzzle
  | [] => none
  | t@(r :: _) => some ⟨r.length, t⟩

/-- `t[i][j]` (the program only reads cells that exist). -/
def getCell (t : Table) (i j : Nat) : Nat := (t.getD i []).getD j 0

/-- `t[i][j] = v` on a fresh copy. -/
def setCell (t : Table) (i j : Nat) (v : Nat) : Table :=
  t.set i ((t.getD i []).set j v)

/-- `''.join(map(str, l))`. -/
def strOfList (l : List Nat) : String := String.join (l.map Nat.repr)

/-- `__iter__`: row-major cell values. -/
def Puzzle.aplatir (p : Puzzle) : List Nat := p.table.flatten

/-- `__str__`. -/
def Puzzle.pstr (p : Puzzle) : String := strOfList p.aplatir

/-- `''.join(map(str, range(1, n))) + '0'`. -/
def goalStr (n : Nat) : String :=
  String.join ((List.range' 1 (n - 1)).map Nat.repr) ++ "0"

/-- Property `est_resolu`. -/
def Puzzle.est_resolu (p : Puzzle) : Bool :=
  p.pstr == goalStr (p.largeur * p.largeur)

/-- Property `manhattan`; note the grid dimension 3 is hard-coded in the
source, independently of `largeur`. -/
def Puzzle.manhattan (p : Puzzle) : Nat :=
  (List.range 3).foldl (fun d i =>
    (List.range 3).foldl (fun d j =>
      let v := getCell p.table i j
      if v ≠ 0 then
        d + ((((v - 1) / 3 : Nat) : Int) - (i : Int)).natAbs
          + ((((v - 1) % 3 : Nat) : Int) - (j : Int)).natAbs
      else d) d) 0

/-- One entry of the `actions` list: the closure `lambda: self._move(p1, p2)`
is determined by the two swapped positions, kept here together with the
direction label. -/
structure Mouvement where
  p1 : Nat × Nat
  p2 : Nat × Nat
  action : String
deriving DecidableEq, Repr

/-- `_move`: copy the grid and swap positions `q1` and `q2`. -/
def Puzzle.move (p : Puzzle) (q1 q2 : Nat × Nat) : Puzzle :=
  let a := getCell p.table q1.1 q1.2
  let b := getCell p.table q2.1 q2.2
  ⟨p.largeur, setCell (setCell p.table q1.1 q1.2 b) q2.1 q2.2 a⟩

/-- The `direcs` dictionary, in Python 3 insertion order. -/
def direcs (i j : Nat) : List (String × Int × Int) :=
  [("D", ((i : Int), (j : Int) - 1)), ("G", ((i : Int), (j : Int) + 1)),
   ("B", ((i : Int) - 1, (j : Int))), ("H", ((i : Int) + 1, (j : Int)))]

/-- Property `actions`: for each cell `(i, j)` in row-major order, each
in-bounds neighbouring position holding the blank yields a move. -/
def Puzzle.actions (p : Puzzle) : List Mouvement :=
  (List.range p.largeur).flatMap (fun i =>
    (List.range p.largeur).flatMap (fun j =>
      (direcs i j).filterMap (fun ac =>
        let r := ac.2.1
        let c := ac.2.2
        if 0 ≤ r ∧ r < (p.largeur : Int) ∧ 0 ≤ c ∧ c < (p.largeur : Int) ∧
            getCell p.table r.toNat c.toNat = 0
        then some ⟨(i, j), (r.toNat, c.toNat), ac.1⟩
        else none)))

/-- Running the stored closure `move()`. -/
def Mouvement.run (m : Mouvement) (p : Puzzle) : Puzzle := p.move m.p1 m.p2

/-- Class `Noeud`. -/
inductive Noeud : Type where
  | mk (puzzle : Puzzle) (parent : Option Noeud) (action : Option String) (g : Nat)
deriving Repr

def Noeud.puzzle : Noeud → Puzzle | .mk p _ _ _ => p
def Noeud.parent : Noeud → Option Noeud | .mk _ pa _ _ => pa
def Noeud.action : Noeud → Option String | .mk _ _ a _ => a
def Noeud.g : Noeud → Nat | .mk _ _ _ g => g

/-- `Noeud.__init__`: `g` is `parent.g + 1`, or `0` for a root. -/
def Noeud.init (puzzle : Puzzle) (parent : Option Noeud) (action : Option String) :
    Noeud :=
  .mk puzzle parent action (match parent with | some pa => pa.g + 1 | none => 0)

/-- Property `etat` (`str(self)`). -/
def Noeud.etat (n : Noeud) : String := n.puzzle.pstr

/-- Property `h`. -/
def Noeud.h (n : Noeud) : Nat := n.puzzle.manhattan

/-- Property `f`. -/
def Noeud.f (n : Noeud) : Nat := n.h + n.g

/-- Property `est_resolu` of a node. -/
def Noeud.est_resolu (n : Noeud) : Bool := n.puzzle.est_resolu

/-- The parent chain `[self, parent, ..., root]` collected by `chemin`. -/
def Noeud.ancestors : Noeud → List Noeud
  | .mk p none a g => [.mk p none a g]
  | .mk p (some pa) a g => .mk p (some pa) a g :: pa.ancestors

/-- Property `chemin`: the reversed parent chain, root first. -/
def Noeud.chemin (n : Noeud) : List Noeud := n.ancestors.reverse

/-- `sorted(list(queue), key=lambda noeud: noeud.f)`: Python's sort is
stable; insertion sort with the non-strict comparison realises exactly the
stable ascending order by `f`. -/
def sortByF (q : List Noeud) : List Noeud :=
  List.insertionSort (fun a b => a.f ≤ b.f) q

/-- The `for move, action in noeud.actions` loop body of `resoudre`:
children are built in enumeration order; a child whose key is unseen is
pushed at the front of the queue (`appendleft`) and its key added to `rs`. -/
def expand (noeud : Noeud) (queue : List Noeud) (rs : List String) :
    List Noeud × List String :=
  noeud.puzzle.actions.foldl (fun qr m =>
    let enfant := Noeud.init (m.run noeud.puzzle) (some noeud) (some m.action)
    if qr.2.contains enfant.etat then qr
    else (enfant :: qr.1, enfant.etat :: qr.2)) (queue, rs)

/-- The `while queue` loop of `Solution.resoudre`, with step fuel. -/
def solveAux : Nat → List Noeud → List String → Option (Option (List Noeud))
  | 0, _, _ => none
  | fuel + 1, queue, rs =>
    match sortByF queue with
    | [] => some none
    | noeud :: rest =>
      if noeud.est_resolu then some (some noeud.chemin)
      else
        let p := expand noeud rest rs
        solveAux fuel p.1 p.2

/-- `Solution.resoudre`: seed the queue with the root node and `rs` with its
key, then run the loop.  `some (some path)` is a returned path,
`some none` the `None` returned when the queue empties, `none` fuel
exhaustion (never reached for sufficient fuel). -/
def resoudre (initial : Puzzle) (fuel : Nat) : Option (Option (List Noeud)) :=
  let racine := Noeud.init initial none none
  solveAux fuel [racine] [racine.etat]

/-! Derived vocabulary used to state the claims. -/

/-- The canonical solved board. -/
def goalP : Puzzle := ⟨3, [[1, 2, 3], [4, 5, 6], [7, 8, 0]]⟩

/-- A well-formed 3x3 board: a 3x3 grid whose cells are exactly
`0, 1, ..., 8`. -/
def valid3 (p : Puzzle) : Prop :=
  p.largeur = 3 ∧ p.table.length = 3 ∧ (∀ r ∈ p.table, r.length = 3) ∧
    p.table.flatten.Perm (List.range 9)

instance (p : Puzzle) : Decidable (valid3 p) := by
  unfold valid3; infer_instance

/-- Two grid positions are adjacent (horizontally or vertically). -/
def adjacent (a b : Nat × Nat) : Prop :=
  ((a.1 : Int) - (b.1 : Int)).natAbs + ((a.2 : Int) - (b.2 : Int)).natAbs = 1

instance (a b : Nat × Nat) : Decidable (adjacent a b) := by
  unfold adjacent; infer_instance

/-! ## C9: construction performs no validation -/

/-- C9 counterexample: constructing a `Puzzle` from a non-square grid, from a
grid with a repeated value, from a grid with no blank, or from a grid with
two blanks succeeds (no `MalformedBoardError` exists anywhere in the code;
`__init__` just stores the grid). -/
theorem C9_counterexample :
    Puzzle.init [[1, 2], [3]] = some ⟨2, [[1, 2], [3]]⟩ ∧
    Puzzle.init [[1, 1], [2, 3]] = some ⟨2, [[1, 1], [2, 3]]⟩ ∧
    Puzzle.init [[1, 2], [3, 4]] = some ⟨2, [[1, 2], [3, 4]]⟩ ∧
    Puzzle.init [[0, 0], [1, 2]] = some ⟨2, [[0, 0], [1, 2]]⟩ :=
  ⟨rfl, rfl, rfl, rfl⟩

/-- C9 amended: `Puzzle.__init__` performs no validation at all.  Any grid
with at least one row is accepted unchanged, with `largeur` set to the
length of the first row; the only failing input is the empty grid (an
`IndexError` from `table[0]`, not a `MalformedBoardError`). -/
theorem C9_amended :
    (∀ (r : List Nat) (rest : List (List Nat)),
      Puzzle.init (r :: rest) = some ⟨r.length, r :: rest⟩) ∧
    Puzzle.init [] = none :=
  ⟨fun _ _ => rfl, rfl⟩

/-! ## String serialisation -/

theorem foldl_append_init (l : List String) : ∀ s t : String,
    l.foldl (fun r x => r ++ x) (s ++ t) = s ++ l.foldl (fun r x => r ++ x) t := by
  induction l with
  | nil => simp
  | cons x xs ih =>
    intro s t
    simp only [List.foldl_cons, String.append_assoc]
    exact ih s (t ++ x)

theorem join_cons (s : String) (l : List String) :
    String.join (s :: l) = s ++ String.join l := by
  have h := foldl_append_init l s ""
  simp only [String.join, List.foldl_cons]
  simpa using h

theorem repr_digit (v : Nat) (h : v < 10) : Nat.repr v = String.mk [Nat.digitChar v] := by
  interval_cases v <;> rfl

theorem strOfList_data (l : List Nat) (h : ∀ v ∈ l, v < 10) :
    (strOfList l).data = l.map Nat.digitChar := by
  induction l with
  | nil => rfl
  | cons x xs ih =>
    have hx : x < 10 := h x (by simp)
    simp only [strOfList, List.map_cons] at ih ⊢
    rw [join_cons, String.data_append, repr_digit x hx,
      ih (fun v hv => h v (by simp [hv]))]
    rfl

theorem digitChar_inj :
    ∀ a, a < 10 → ∀ b, b < 10 → Nat.digitChar a = Nat.digitChar b → a = b := by
  decide

theorem map_digitChar_inj : ∀ l1 l2 : List Nat, (∀ v ∈ l1, v < 10) →
    (∀ v ∈ l2, v < 10) → l1.map Nat.digitChar = l2.map Nat.digitChar → l1 = l2 := by
  intro l1
  induction l1 with
  | nil => intro l2 _ _ h; cases l2 <;> simp_all
  | cons x xs ih =>
    intro l2 h1 h2 h
    cases l2 with
    | nil => simp_all
    | cons y ys =>
      simp only [List.map_cons, List.cons.injEq] at h
      have hx := digitChar_inj x (h1 x (by simp)) y (h2 y (by simp)) h.1
      subst hx
      exact congrArg _ (ih ys (fun v hv => h1 v (by simp [hv]))
        (fun v hv => h2 v (by simp [hv])) h.2)

theorem strOfList_inj (l1 l2 : List Nat) (h1 : ∀ v ∈ l1, v < 10)
    (h2 : ∀ v ∈ l2, v < 10) (heq : strOfList l1 = strOfList l2) : l1 = l2 := by
  apply map_digitChar_inj l1 l2 h1 h2
  rw [← strOfList_data l1 h1, ← strOfList_data l2 h2, heq]

/-! ## Well-formed boards -/

theorem valid3_destruct (p : Puzzle) (hv : valid3 p) :
    ∃ a1 a2 a3 b1 b2 b3 c1 c2 c3 : Nat,
      p.table = [[a1, a2, a3], [b1, b2, b3], [c1, c2, c3]] := by
  obtain ⟨-, hlen, hrows, -⟩ := hv
  obtain ⟨r1, r2, r3, ht⟩ := List.length_eq_three.mp hlen
  obtain ⟨a1, a2, a3, h1⟩ := List.length_eq_three.mp (hrows r1 (by simp [ht]))
  obtain ⟨b1, b2, b3, h2⟩ := List.length_eq_three.mp (hrows r2 (by simp [ht]))
  obtain ⟨c1, c2, c3, h3⟩ := List.length_eq_three.mp (hrows r3 (by simp [ht]))
  exact ⟨a1, a2, a3, b1, b2, b3, c1, c2, c3, by rw [ht, h1, h2, h3]⟩

theorem valid3_lt (p : Puzzle) (hv : valid3 p) : ∀ v ∈ p.table.flatten, v < 9 := by
  intro v hv'
  have := hv.2.2.2.mem_iff.mp hv'
  simpa using this

theorem goalStr_nine : goalStr 9 = strOfList [1, 2, 3, 4, 5, 6, 7, 8, 0] := rfl

theorem est_resolu_iff_table (p : Puzzle) (hv : valid3 p) :
    p.est_resolu = true ↔ p.table = [[1, 2, 3], [4, 5, 6], [7, 8, 0]] := by
  constructor
  · intro h
    simp only [Puzzle.est_resolu, hv.1, beq_iff_eq] at h
    have hs : strOfList p.table.flatten = strOfList [1, 2, 3, 4, 5, 6, 7, 8, 0] := by
      rw [← goalStr_nine]; exact h
    have hier := strOfList_inj _ _
      (fun v hv' => Nat.lt_trans (valid3_lt p hv v hv') (by omega))
      (by decide) hs
    obtain ⟨a1, a2, a3, b1, b2, b3, c1, c2, c3, ht⟩ := valid3_destruct p hv
    rw [ht] at hier ⊢
    simp only [List.flatten] at hier
    simp_all
  · intro h
    simp [Puzzle.est_resolu, hv.1, Puzzle.pstr, Puzzle.aplatir, h]
    rfl

/-! ## C10: the string key decides board equality -/

/-- C10: for valid 3x3 boards the row-major string serialisation
(`Puzzle.__str__`, which is also `Noeud.etat`) is equal exactly when the
grids are equal, so visited-set membership and the string comparison inside
`est_resolu` decide exact board equality. -/
theorem C10 (p q : Puzzle) (hp : valid3 p) (hq : valid3 q) :
    (p.pstr = q.pstr ↔ p.table = q.table) ∧ (∀ n : Noeud, n.etat = n.puzzle.pstr) := by
  refine ⟨⟨fun h => ?_, fun h => ?_⟩, fun _ => rfl⟩
  · have hfl := strOfList_inj p.table.flatten q.table.flatten
      (fun v hv' => Nat.lt_trans (valid3_lt p hp v hv') (by omega))
      (fun v hv' => Nat.lt_trans (valid3_lt q hq v hv') (by omega)) h
    obtain ⟨a1, a2, a3, b1, b2, b3, c1, c2, c3, ht⟩ := valid3_destruct p hp
    obtain ⟨d1, d2, d3, e1, e2, e3, f1, f2, f3, ht'⟩ := valid3_destruct q hq
    rw [ht, ht'] at hfl ⊢
    simp only [List.flatten] at hfl
    simp_all
  · simp [Puzzle.pstr, Puzzle.aplatir, h]

/-- C10 witness at the goal board. -/
theorem C10_witness : goalP.pstr = goalP.pstr :=
  (C10 goalP goalP (by decide) (by decide)).1.mpr rfl

/-! ## Grid shape and cell algebra -/

def shape3 (t : Table) : Prop := t.length = 3 ∧ ∀ r ∈ t, r.length = 3

theorem valid3_shape3 (p : Puzzle) (hv : valid3 p) : shape3 p.table :=
  ⟨hv.2.1, hv.2.2.1⟩

theorem shape3_destruct (t : Table) (h : shape3 t) :
    ∃ a1 a2 a3 b1 b2 b3 c1 c2 c3 : Nat,
      t = [[a1, a2, a3], [b1, b2, b3], [c1, c2, c3]] := by
  obtain ⟨hlen, hrows⟩ := h
  obtain ⟨r1, r2, r3, ht⟩ := List.length_eq_three.mp hlen
  obtain ⟨a1, a2, a3, h1⟩ := List.length_eq_three.mp (hrows r1 (by simp [ht]))
  obtain ⟨b1, b2, b3, h2⟩ := List.length_eq_three.mp (hrows r2 (by simp [ht]))
  obtain ⟨c1, c2, c3, h3⟩ := List.length_eq_three.mp (hrows r3 (by simp [ht]))
  exact ⟨a1, a2, a3, b1, b2, b3, c1, c2, c3, by rw [ht, h1, h2, h3]⟩

theorem getCell_setCell (t : Table) (ht : shape3 t) (a b i j v : Nat)
    (ha : a < 3) (hb : b < 3) (hi : i < 3) (hj : j < 3) :
    getCell (setCell t a b v) i j = if a = i ∧ b = j then v else getCell t i j := by
  obtain ⟨a1, a2, a3, b1, b2, b3, c1, c2, c3, rfl⟩ := shape3_destruct t ht
  interval_cases a <;> interval_cases b <;> interval_cases i <;> interval_cases j <;>
    simp [getCell, setCell]

theorem shape3_setCell (t : Table) (ht : shape3 t) (i j v : Nat) :
    shape3 (setCell t i j v) := by
  constructor
  · simpa [setCell] using ht.1
  · intro r hr
    rcases Nat.lt_or_ge i t.length with hi | hi
    · rcases List.mem_or_eq_of_mem_set hr with h | h
      · exact ht.2 r h
      · have hrow : t.getD i [] ∈ t := by
          rw [List.getD_eq_getElem?_getD, List.getElem?_eq_getElem hi]
          exact List.getElem_mem hi
        rw [h]
        simpa using ht.2 _ hrow
    · rw [setCell, List.set_eq_of_length_le hi] at hr
      exact ht.2 r hr

theorem flatten_length3 (t : Table) (ht : shape3 t) : t.flatten.length = 9 := by
  obtain ⟨a1, a2, a3, b1, b2, b3, c1, c2, c3, rfl⟩ := shape3_destruct t ht
  rfl

theorem flatten_setCell (t : Table) (ht : shape3 t) (i j v : Nat)
    (hi : i < 3) (hj : j < 3) :
    (setCell t i j v).flatten = t.flatten.set (3 * i + j) v := by
  obtain ⟨a1, a2, a3, b1, b2, b3, c1, c2, c3, rfl⟩ := shape3_destruct t ht
  interval_cases i <;> interval_cases j <;> simp [setCell]

theorem getCell_flat (t : Table) (ht : shape3 t) (i j : Nat)
    (hi : i < 3) (hj : j < 3) :
    getCell t i j = t.flatten.getD (3 * i + j) 0 := by
  obtain ⟨a1, a2, a3, b1, b2, b3, c1, c2, c3, rfl⟩ := shape3_destruct t ht
  interval_cases i <;> interval_cases j <;> simp [getCell]

theorem table_ext3 (t u : Table) (ht : shape3 t) (hu : shape3 u)
    (hc : ∀ i < 3, ∀ j < 3, getCell t i j = getCell u i j) : t = u := by
  obtain ⟨a1, a2, a3, b1, b2, b3, c1, c2, c3, rfl⟩ := shape3_destruct t ht
  obtain ⟨d1, d2, d3, e1, e2, e3, f1, f2, f3, rfl⟩ := shape3_destruct u hu
  have h00 := hc 0 (by omega) 0 (by omega)
  have h01 := hc 0 (by omega) 1 (by omega)
  have h02 := hc 0 (by omega) 2 (by omega)
  have h10 := hc 1 (by omega) 0 (by omega)
  have h11 := hc 1 (by omega) 1 (by omega)
  have h12 := hc 1 (by omega) 2 (by omega)
  have h20 := hc 2 (by omega) 0 (by omega)
  have h21 := hc 2 (by omega) 1 (by omega)
  have h22 := hc 2 (by omega) 2 (by omega)
  simp [getCell] at h00 h01 h02 h10 h11 h12 h20 h21 h22
  simp_all

theorem set_set_perm (l : List Nat) (a b : Nat) (ha : a < l.length)
    (hb : b < l.length) :
    ((l.set a (l.getD b 0)).set b (l.getD a 0)).Perm l := by
  have hga : l.getD a 0 = l[a] := by
    rw [List.getD_eq_getElem?_getD, List.getElem?_eq_getElem ha]; rfl
  have hgb : l.getD b 0 = l[b] := by
    rw [List.getD_eq_getElem?_getD, List.getElem?_eq_getElem hb]; rfl
  rw [List.perm_iff_count]
  intro x
  have hlb : b < (l.set a (l.getD b 0)).length := by simpa using hb
  rw [List.count_set _ _ _ _ hlb, List.count_set _ _ _ _ ha]
  have hsb : (l.set a (l.getD b 0))[b] = l[b] := by
    rw [List.getElem_set hlb]
    split
    · rw [hgb]
    · rfl
  rw [hsb, hga, hgb]
  have hca : l[a] = x → 1 ≤ List.count x l := by
    intro h; rw [← h]; exact List.count_pos_iff.mpr (List.getElem_mem ha)
  have hcb : l[b] = x → 1 ≤ List.count x l := by
    intro h; rw [← h]; exact List.count_pos_iff.mpr (List.getElem_mem hb)
  by_cases e1 : l[a] = x <;> by_cases e2 : l[b] = x
  · have := hca e1
    simp only [e1, e2, beq_self_eq_true, if_true]
    omega
  · have := hca e1
    simp only [e1, beq_self_eq_true, if_true, beq_iff_eq, e2, if_false]
    omega
  · simp only [e2, beq_self_eq_true, if_true, beq_iff_eq, e1, if_false]
    omega
  · simp only [beq_iff_eq, e1, e2, if_false]
    omega

theorem move_largeur (p : Puzzle) (q1 q2 : Nat × Nat) :
    (p.move q1 q2).largeur = p.largeur := rfl

theorem move_table (p : Puzzle) (q1 q2 : Nat × Nat) :
    (p.move q1 q2).table =
      setCell (setCell p.table q1.1 q1.2 (getCell p.table q2.1 q2.2)) q2.1 q2.2
        (getCell p.table q1.1 q1.2) := rfl

theorem shape3_move (p : Puzzle) (ht : shape3 p.table) (q1 q2 : Nat × Nat) :
    shape3 (p.move q1 q2).table :=
  shape3_setCell _ (shape3_setCell _ ht _ _ _) _ _ _

theorem flatten_move_perm (p : Puzzle) (ht : shape3 p.table) (q1 q2 : Nat × Nat)
    (h11 : q1.1 < 3) (h12 : q1.2 < 3) (h21 : q2.1 < 3) (h22 : q2.2 < 3) :
    (p.move q1 q2).table.flatten.Perm p.table.flatten := by
  have hl : p.table.flatten.length = 9 := flatten_length3 _ ht
  have k1 : 3 * q1.1 + q1.2 < p.table.flatten.length := by omega
  have k2 : 3 * q2.1 + q2.2 < p.table.flatten.length := by omega
  have hrw : (p.move q1 q2).table.flatten =
      (p.table.flatten.set (3 * q1.1 + q1.2) (p.table.flatten.getD (3 * q2.1 + q2.2) 0)).set
        (3 * q2.1 + q2.2) (p.table.flatten.getD (3 * q1.1 + q1.2) 0) := by
    rw [move_table, flatten_setCell _ (shape3_setCell _ ht _ _ _) _ _ _ h21 h22,
      flatten_setCell _ ht _ _ _ h11 h12,
      getCell_flat _ ht _ _ h21 h22, getCell_flat _ ht _ _ h11 h12]
  rw [hrw]
  exact set_set_perm _ _ _ k1 k2

theorem valid3_move (p : Puzzle) (hv : valid3 p) (q1 q2 : Nat × Nat)
    (h11 : q1.1 < 3) (h12 : q1.2 < 3) (h21 : q2.1 < 3) (h22 : q2.2 < 3) :
    valid3 (p.move q1 q2) := by
  have hsh := shape3_move p (valid3_shape3 p hv) q1 q2
  exact ⟨hv.1, hsh.1, hsh.2,
    (flatten_move_perm p (valid3_shape3 p hv) q1 q2 h11 h12 h21 h22).trans hv.2.2.2⟩

theorem getCell_move (p : Puzzle) (ht : shape3 p.table) (q1 q2 : Nat × Nat)
    (h11 : q1.1 < 3) (h12 : q1.2 < 3) (h21 : q2.1 < 3) (h22 : q2.2 < 3)
    (i j : Nat) (hi : i < 3) (hj : j < 3) :
    getCell (p.move q1 q2).table i j =
      if q2.1 = i ∧ q2.2 = j then getCell p.table q1.1 q1.2
      else if q1.1 = i ∧ q1.2 = j then getCell p.table q2.1 q2.2
      else getCell p.table i j := by
  rw [move_table,
    getCell_setCell _ (shape3_setCell _ ht _ _ _) _ _ _ _ _ h21 h22 hi hj,
    getCell_setCell _ ht _ _ _ _ _ h11 h12 hi hj]

theorem move_move (p : Puzzle) (ht : shape3 p.table) (q1 q2 : Nat × Nat)
    (h11 : q1.1 < 3) (h12 : q1.2 < 3) (h21 : q2.1 < 3) (h22 : q2.2 < 3) :
    (p.move q1 q2).move q1 q2 = p := by
  have hsh := shape3_move p ht q1 q2
  have htab : ((p.move q1 q2).move q1 q2).table = p.table := by
    apply table_ext3 _ _ (shape3_move _ hsh q1 q2) ht
    intro i hi j hj
    rw [getCell_move _ hsh q1 q2 h11 h12 h21 h22 i j hi hj,
      getCell_move _ ht q1 q2 h11 h12 h21 h22 q1.1 q1.2 h11 h12,
      getCell_move _ ht q1 q2 h11 h12 h21 h22 q2.1 q2.2 h21 h22,
      getCell_move _ ht q1 q2 h11 h12 h21 h22 i j hi hj]
    split_ifs <;> simp_all
  have hlar : ((p.move q1 q2).move q1 q2).largeur = p.largeur := rfl
  cases hp : (p.move q1 q2).move q1 q2
  cases p
  simp_all

theorem move_symm (p : Puzzle) (ht : shape3 p.table) (q1 q2 : Nat × Nat)
    (h11 : q1.1 < 3) (h12 : q1.2 < 3) (h21 : q2.1 < 3) (h22 : q2.2 < 3) :
    p.move q1 q2 = p.move q2 q1 := by
  have htab : (p.move q1 q2).table = (p.move q2 q1).table := by
    apply table_ext3 _ _ (shape3_move _ ht q1 q2) (shape3_move _ ht q2 q1)
    intro i hi j hj
    rw [getCell_move _ ht q1 q2 h11 h12 h21 h22 i j hi hj,
      getCell_move _ ht q2 q1 h21 h22 h11 h12 i j hi hj]
    split_ifs <;> simp_all
  cases hp : p.move q1 q2
  cases hq : p.move q2 q1
  have h1 : (p.move q1 q2).largeur = (p.move q2 q1).largeur := rfl
  simp_all

/-! ## The blank cell and move enumeration -/

theorem exists_blank (p : Puzzle) (hv : valid3 p) :
    ∃ bi bj, bi < 3 ∧ bj < 3 ∧ getCell p.table bi bj = 0 ∧
      ∀ r c, r < 3 → c < 3 → getCell p.table r c = 0 → r = bi ∧ c = bj := by
  have hperm := hv.2.2.2
  have hsh := valid3_shape3 p hv
  have hlen := flatten_length3 _ hsh
  have hmem : 0 ∈ p.table.flatten := hperm.mem_iff.mpr (by simp)
  obtain ⟨k, hk, hk0⟩ := List.getElem_of_mem hmem
  have hnd : p.table.flatten.Nodup := hperm.nodup_iff.mpr (List.nodup_range 9)
  have hk9 : k < 9 := by omega
  refine ⟨k / 3, k % 3, by omega, by omega, ?_, ?_⟩
  · rw [getCell_flat _ hsh _ _ (by omega) (by omega)]
    have h3k : 3 * (k / 3) + k % 3 = k := by omega
    rw [h3k, List.getD_eq_getElem?_getD, List.getElem?_eq_getElem hk]
    simpa using hk0
  · intro r c hr hc h0
    rw [getCell_flat _ hsh _ _ hr hc] at h0
    have hrc : 3 * r + c < p.table.flatten.length := by omega
    rw [List.getD_eq_getElem?_getD, List.getElem?_eq_getElem hrc] at h0
    simp only [Option.getD_some] at h0
    have heq : 3 * r + c = k := hnd.getElem_inj_iff.mp (by rw [h0, hk0])
    omega

/-- The moves `actions` yields when the blank sits at `(bi, bj)`: the cells
above, left of, right of and below the blank, in the row-major order the
source enumerates them, each paired with the blank position and its
direction label. -/
def expectedActions (bi bj : Nat) : List Mouvement :=
  (if 1 ≤ bi then [⟨(bi - 1, bj), (bi, bj), "H"⟩] else []) ++
  (if 1 ≤ bj then [⟨(bi, bj - 1), (bi, bj), "G"⟩] else []) ++
  (if bj + 1 ≤ 2 then [⟨(bi, bj + 1), (bi, bj), "D"⟩] else []) ++
  (if bi + 1 ≤ 2 then [⟨(bi + 1, bj), (bi, bj), "B"⟩] else [])

set_option maxHeartbeats 1000000 in
theorem actions_char (p : Puzzle) (h3 : p.largeur = 3) (bi bj : Nat)
    (hbi : bi < 3) (hbj : bj < 3) (hb : getCell p.table bi bj = 0)
    (hu : ∀ r c, r < 3 → c < 3 → getCell p.table r c = 0 → r = bi ∧ c = bj) :
    p.actions = expectedActions bi bj := by
  have hiff : ∀ r c, r < 3 → c < 3 → (getCell p.table r c = 0 ↔ (r = bi ∧ c = bj)) := by
    intro r c hr hc
    exact ⟨hu r c hr hc, by rintro ⟨rfl, rfl⟩; exact hb⟩
  have hr3 : List.range 3 = [0, 1, 2] := rfl
  interval_cases bi <;> interval_cases bj <;>
    simp [Puzzle.actions, h3, hr3, direcs, expectedActions, hiff]

theorem mouvement_facts (p : Puzzle) (ht : shape3 p.table) (a b : Nat × Nat)
    (ha1 : a.1 < 3) (ha2 : a.2 < 3) (hb1 : b.1 < 3) (hb2 : b.2 < 3)
    (hne : ¬(a.1 = b.1 ∧ a.2 = b.2)) (hblank : getCell p.table b.1 b.2 = 0) :
    getCell (p.move a b).table a.1 a.2 = 0 ∧
    getCell (p.move a b).table b.1 b.2 = getCell p.table a.1 a.2 ∧
    (∀ i < 3, ∀ j < 3, ¬(i = a.1 ∧ j = a.2) → ¬(i = b.1 ∧ j = b.2) →
      getCell (p.move a b).table i j = getCell p.table i j) ∧
    (p.move a b).move a b = p := by
  refine ⟨?_, ?_, ?_, move_move p ht a b ha1 ha2 hb1 hb2⟩
  · rw [getCell_move p ht a b ha1 ha2 hb1 hb2 a.1 a.2 ha1 ha2,
      if_neg (fun h => hne ⟨h.1.symm, h.2.symm⟩), if_pos ⟨rfl, rfl⟩]
    exact hblank
  · rw [getCell_move p ht a b ha1 ha2 hb1 hb2 b.1 b.2 hb1 hb2, if_pos ⟨rfl, rfl⟩]
  · intro i hi j hj hna hnb
    rw [getCell_move p ht a b ha1 ha2 hb1 hb2 i j hi hj,
      if_neg (fun h => hnb ⟨h.1.symm, h.2.symm⟩),
      if_neg (fun h => hna ⟨h.1.symm, h.2.symm⟩)]

/-! ## C7: move generation -/

/-- C7: on every valid 3x3 board, `actions` yields between 2 and 4 moves;
each move's target `p2` is the blank, its source `p1` an in-bounds adjacent
cell; running the move swaps exactly those two cells (the blank moves to
`p1`, the tile to `p2`, all other cells unchanged); and swapping the same
two positions again restores the original board.  (The original board is
itself never mutated: `move` is a pure function on immutable values.) -/
theorem C7 (p : Puzzle) (hv : valid3 p) :
    (2 ≤ p.actions.length ∧ p.actions.length ≤ 4) ∧
    ∀ m ∈ p.actions,
      m.p1.1 < 3 ∧ m.p1.2 < 3 ∧ m.p2.1 < 3 ∧ m.p2.2 < 3 ∧
      getCell p.table m.p2.1 m.p2.2 = 0 ∧ adjacent m.p1 m.p2 ∧
      m.run p = p.move m.p1 m.p2 ∧
      getCell (m.run p).table m.p1.1 m.p1.2 = 0 ∧
      getCell (m.run p).table m.p2.1 m.p2.2 = getCell p.table m.p1.1 m.p1.2 ∧
      (∀ i < 3, ∀ j < 3, ¬(i = m.p1.1 ∧ j = m.p1.2) → ¬(i = m.p2.1 ∧ j = m.p2.2) →
        getCell (m.run p).table i j = getCell p.table i j) ∧
      (m.run p).move m.p1 m.p2 = p := by
  obtain ⟨bi, bj, hbi, hbj, hb, hu⟩ := exists_blank p hv
  have hchar := actions_char p hv.1 bi bj hbi hbj hb hu
  have ht := valid3_shape3 p hv
  constructor
  · rw [hchar]
    interval_cases bi <;> interval_cases bj <;> simp [expectedActions]
  · intro m hm
    rw [hchar] at hm
    have key : ∀ x ∈ expectedActions bi bj, x.p1.1 < 3 ∧ x.p1.2 < 3 ∧
        x.p2 = (bi, bj) ∧ ¬(x.p1.1 = bi ∧ x.p1.2 = bj) ∧ adjacent x.p1 x.p2 := by
      interval_cases bi <;> interval_cases bj <;> decide
    obtain ⟨h11, h12, hp2, hne, hadj⟩ := key m hm
    have hblank : getCell p.table m.p2.1 m.p2.2 = 0 := by rw [hp2]; exact hb
    have hb1 : m.p2.1 < 3 := by rw [hp2]; exact hbi
    have hb2 : m.p2.2 < 3 := by rw [hp2]; exact hbj
    have hne2 : ¬(m.p1.1 = m.p2.1 ∧ m.p1.2 = m.p2.2) := by rw [hp2]; exact hne
    obtain ⟨f1, f2, f3, f4⟩ :=
      mouvement_facts p ht m.p1 m.p2 h11 h12 hb1 hb2 hne2 hblank
    exact ⟨h11, h12, hb1, hb2, hblank, hadj, rfl, f1, f2, f3, f4⟩

/-- C7 witness at the goal board. -/
theorem C7_witness : 2 ≤ goalP.actions.length := (C7 goalP (by decide)).1.1

/-! ## C8: the Manhattan heuristic vanishes exactly on the goal -/

/-- The contribution of cell `(i, j)` to `manhattan`. -/
def cellDist (t : Table) (i j : Nat) : Nat :=
  let v := getCell t i j
  if v ≠ 0 then
    ((((v - 1) / 3 : Nat) : Int) - (i : Int)).natAbs
      + ((((v - 1) % 3 : Nat) : Int) - (j : Int)).natAbs
  else 0

theorem manhattan_eq9 (p : Puzzle) : p.manhattan =
    cellDist p.table 0 0 + cellDist p.table 0 1 + cellDist p.table 0 2 +
    cellDist p.table 1 0 + cellDist p.table 1 1 + cellDist p.table 1 2 +
    cellDist p.table 2 0 + cellDist p.table 2 1 + cellDist p.table 2 2 := by
  have hbody : ∀ d i j : Nat,
      (if getCell p.table i j ≠ 0 then
        d + ((((getCell p.table i j - 1) / 3 : Nat) : Int) - (i : Int)).natAbs
          + ((((getCell p.table i j - 1) % 3 : Nat) : Int) - (j : Int)).natAbs
      else d) = d + cellDist p.table i j := by
    intro d i j
    unfold cellDist
    by_cases hc : getCell p.table i j ≠ 0 <;> simp [hc] <;> omega
  have hr3 : List.range 3 = [0, 1, 2] := rfl
  unfold Puzzle.manhattan
  simp only [hr3, List.foldl_cons, List.foldl_nil, hbody]
  omega

theorem cellDist_zero (t : Table) (i j : Nat) (hc : cellDist t i j = 0) :
    getCell t i j = 0 ∨ getCell t i j = 3 * i + j + 1 := by
  unfold cellDist at hc
  by_cases hz : getCell t i j = 0
  · exact Or.inl hz
  · right
    simp only [ne_eq, hz, not_false_eq_true, if_true, if_pos] at hc
    omega

/-- C8 counterexample: the claim quantifies over valid N x N boards, but
`manhattan` hard-codes the 3x3 geometry; on the solved 4x4 board
`est_resolu` is true while `manhattan` is 11, so the equivalence fails
beyond 3x3. -/
theorem C8_counterexample :
    (⟨4, [[1, 2, 3, 4], [5, 6, 7, 8], [9, 10, 11, 12], [13, 14, 15, 0]]⟩ :
        Puzzle).est_resolu = true ∧
    (⟨4, [[1, 2, 3, 4], [5, 6, 7, 8], [9, 10, 11, 12], [13, 14, 15, 0]]⟩ :
        Puzzle).manhattan ≠ 0 := by
  decide

/-- C8 amended: on every valid 3x3 board (the dimension the heuristic is
written for), `manhattan` is zero exactly when `est_resolu` holds. -/
theorem C8 (p : Puzzle) (hv : valid3 p) :
    p.manhattan = 0 ↔ p.est_resolu = true := by
  obtain ⟨a1, a2, a3, b1, b2, b3, c1, c2, c3, ht⟩ := valid3_destruct p hv
  have hfl : p.table.flatten = [a1, a2, a3, b1, b2, b3, c1, c2, c3] := by rw [ht]; rfl
  constructor
  · intro hm
    rw [manhattan_eq9] at hm
    have hlt := valid3_lt p hv
    rw [hfl] at hlt
    have hcount : List.count 0 [a1, a2, a3, b1, b2, b3, c1, c2, c3] = 1 := by
      have hp := hv.2.2.2
      rw [hfl] at hp
      have := hp.count_eq 0
      simpa using this
    have h00 := cellDist_zero p.table 0 0 (by omega)
    have h01 := cellDist_zero p.table 0 1 (by omega)
    have h02 := cellDist_zero p.table 0 2 (by omega)
    have h10 := cellDist_zero p.table 1 0 (by omega)
    have h11 := cellDist_zero p.table 1 1 (by omega)
    have h12 := cellDist_zero p.table 1 2 (by omega)
    have h20 := cellDist_zero p.table 2 0 (by omega)
    have h21 := cellDist_zero p.table 2 1 (by omega)
    have h22 := cellDist_zero p.table 2 2 (by omega)
    rw [ht] at h00 h01 h02 h10 h11 h12 h20 h21 h22
    simp only [getCell, List.getD] at h00 h01 h02 h10 h11 h12 h20 h21 h22
    norm_num at h00 h01 h02 h10 h11 h12 h20 h21 h22
    have hc3 : c3 = 0 := by
      rcases h22 with h | h
      · exact h
      · exact absurd (hlt c3 (by simp)) (by omega)
    subst hc3
    have hsplit : ([a1, a2, a3, b1, b2, b3, c1, c2, 0] : List Nat) =
        [a1, a2, a3, b1, b2, b3, c1, c2] ++ [0] := rfl
    rw [hsplit, List.count_append] at hcount
    simp at hcount
    have hnz : (0 : Nat) ∉ [a1, a2, a3, b1, b2, b3, c1, c2] :=
      List.count_eq_zero.mp hcount
    simp only [List.mem_cons, List.not_mem_nil, or_false] at hnz
    push_neg at hnz
    obtain ⟨n1, n2, n3, n4, n5, n6, n7, n8⟩ := hnz
    have ea1 : a1 = 1 := by rcases h00 with h | h; exact absurd h.symm n1; omega
    have ea2 : a2 = 2 := by rcases h01 with h | h; exact absurd h.symm n2; omega
    have ea3 : a3 = 3 := by rcases h02 with h | h; exact absurd h.symm n3; omega
    have eb1 : b1 = 4 := by rcases h10 with h | h; exact absurd h.symm n4; omega
    have eb2 : b2 = 5 := by rcases h11 with h | h; exact absurd h.symm n5; omega
    have eb3 : b3 = 6 := by rcases h12 with h | h; exact absurd h.symm n6; omega
    have ec1 : c1 = 7 := by rcases h20 with h | h; exact absurd h.symm n7; omega
    have ec2 : c2 = 8 := by rcases h21 with h | h; exact absurd h.symm n8; omega
    exact (est_resolu_iff_table p hv).mpr (by rw [ht, ea1, ea2, ea3, eb1, eb2, eb3, ec1, ec2])
  · intro hres
    have htab := (est_resolu_iff_table p hv).mp hres
    rw [manhattan_eq9, htab]
    decide

/-- C8 witness at the goal board. -/
theorem C8_witness : goalP.manhattan = 0 := (C8 goalP (by decide)).mpr (by decide)

/-! ## Search-node well-formedness and paths -/

/-- A node is well formed when its `g` was computed by `Noeud.init` all the
way up its parent chain. -/
def Noeud.wf : Noeud → Prop
  | .mk _ none _ g => g = 0
  | .mk _ (some pa) _ g => g = pa.g + 1 ∧ pa.wf

theorem wf_init_root (p : Puzzle) (a : Option String) : (Noeud.init p none a).wf := rfl

theorem wf_init_child (p : Puzzle) (pa : Noeud) (a : Option String) (h : pa.wf) :
    (Noeud.init p (some pa) a).wf := ⟨rfl, h⟩

theorem ancestors_head (n : Noeud) : ∃ t, n.ancestors = n :: t := by
  cases n with
  | mk p pa a g => cases pa <;> simp [Noeud.ancestors]

theorem ancestors_ne_nil (n : Noeud) : n.ancestors ≠ [] := by
  obtain ⟨t, ht⟩ := ancestors_head n
  simp [ht]

theorem chemin_ne_nil (n : Noeud) : n.chemin ≠ [] := by
  simp [Noeud.chemin, ancestors_ne_nil]

theorem ancestors_chain :
    ∀ n : Noeud, n.wf →
      List.Chain' (fun x y => x.parent = some y ∧ x.g = y.g + 1) n.ancestors
  | .mk p none a g => by
    intro hwf
    simp [Noeud.ancestors]
  | .mk p (some pa) a g => by
    intro hwf
    obtain ⟨t, htl⟩ := ancestors_head pa
    have ih := ancestors_chain pa hwf.2
    show List.Chain' _ (Noeud.mk p (some pa) a g :: pa.ancestors)
    rw [htl] at ih ⊢
    exact List.chain'_cons.mpr ⟨⟨rfl, hwf.1⟩, ih⟩

theorem ancestors_getLast :
    ∀ n : Noeud, n.wf → ∀ hne : n.ancestors ≠ [],
      (n.ancestors.getLast hne).g = 0 ∧ (n.ancestors.getLast hne).parent = none
  | .mk p none a g => by
    intro hwf hne
    exact ⟨hwf, rfl⟩
  | .mk p (some pa) a g => by
    intro hwf hne
    have ih := ancestors_getLast pa hwf.2 (ancestors_ne_nil pa)
    have heq : (Noeud.mk p (some pa) a g).ancestors.getLast hne =
        pa.ancestors.getLast (ancestors_ne_nil pa) := by
      show (Noeud.mk p (some pa) a g :: pa.ancestors).getLast _ = _
      rw [List.getLast_cons (ancestors_ne_nil pa)]
    rw [heq]
    exact ih

theorem chemin_head (n : Noeud) (hwf : n.wf) (hne : n.chemin ≠ []) :
    (n.chemin.head hne).g = 0 ∧ (n.chemin.head hne).parent = none := by
  have h : n.chemin.head hne = n.ancestors.getLast (ancestors_ne_nil n) := by
    simp only [Noeud.chemin]
    rw [List.head_reverse]
  rw [h]
  exact ancestors_getLast n hwf _

theorem chemin_getLast (n : Noeud) (hne : n.chemin ≠ []) :
    n.chemin.getLast hne = n := by
  simp only [Noeud.chemin] at hne ⊢
  rw [List.getLast_reverse]
  obtain ⟨t, ht⟩ := ancestors_head n
  simp [ht]

theorem chemin_chain (n : Noeud) (hwf : n.wf) :
    List.Chain' (fun a b => b.parent = some a ∧ b.g = a.g + 1) n.chemin := by
  simp only [Noeud.chemin]
  rw [List.chain'_reverse]
  exact ancestors_chain n hwf

theorem mem_foldl_expand :
    ∀ (ms : List Mouvement) (p : Puzzle) (nd : Noeud) (q : List Noeud)
      (rs : List String) (n : Noeud),
      n ∈ (ms.foldl (fun qr m =>
        let enfant := Noeud.init (m.run p) (some nd) (some m.action)
        if qr.2.contains enfant.etat then qr
        else (enfant :: qr.1, enfant.etat :: qr.2)) (q, rs)).1 →
      n ∈ q ∨ ∃ m : Mouvement, n = Noeud.init (m.run p) (some nd) (some m.action) := by
  intro ms
  induction ms with
  | nil => intro p nd q rs n h; exact Or.inl h
  | cons m ms ih =>
    intro p nd q rs n h
    simp only [List.foldl_cons] at h
    by_cases hc : rs.contains (Noeud.init (m.run p) (some nd) (some m.action)).etat <;>
      simp only [hc, if_true, if_false] at h
    · exact ih p nd q rs n h
    · rcases ih p nd _ _ n h with hin | hex
      · rcases List.mem_cons.mp hin with heq | hin2
        · exact Or.inr ⟨m, heq⟩
        · exact Or.inl hin2
      · exact Or.inr hex

theorem expand_mem (nd : Noeud) (q : List Noeud) (rs : List String) (n : Noeud)
    (h : n ∈ (expand nd q rs).1) :
    n ∈ q ∨ ∃ m : Mouvement, n = Noeud.init (m.run nd.puzzle) (some nd) (some m.action) :=
  mem_foldl_expand nd.puzzle.actions nd.puzzle nd q rs n h

theorem solveAux_succ_nil (fuel : Nat) (q : List Noeud) (rs : List String)
    (hs : sortByF q = []) : solveAux (fuel + 1) q rs = some none := by
  rw [solveAux, hs]

theorem solveAux_succ_cons (fuel : Nat) (q : List Noeud) (rs : List String)
    (nd : Noeud) (rest : List Noeud) (hs : sortByF q = nd :: rest) :
    solveAux (fuel + 1) q rs =
      if nd.est_resolu then some (some nd.chemin)
      else solveAux fuel (expand nd rest rs).1 (expand nd rest rs).2 := by
  rw [solveAux, hs]

theorem solveAux_path_wf : ∀ (fuel : Nat) (q : List Noeud) (rs : List String)
    (path : List Noeud), (∀ n ∈ q, n.wf) →
    solveAux fuel q rs = some (some path) →
    ∃ n : Noeud, n.wf ∧ n.est_resolu = true ∧ path = n.chemin := by
  intro fuel
  induction fuel with
  | zero => intro q rs path hq h; simp [solveAux] at h
  | succ fuel ih =>
    intro q rs path hq h
    cases hs : sortByF q with
    | nil => rw [solveAux_succ_nil fuel q rs hs] at h; simp at h
    | cons nd rest =>
      rw [solveAux_succ_cons fuel q rs nd rest hs] at h
      have hperm : (sortByF q).Perm q := List.perm_insertionSort _ q
      have hnd : nd.wf := hq nd (hperm.subset (by rw [hs]; exact List.mem_cons_self _ _))
      by_cases hres : nd.est_resolu = true
      · rw [if_pos hres] at h
        simp only [Option.some.injEq] at h
        exact ⟨nd, hnd, hres, h.symm⟩
      · rw [if_neg hres] at h
        refine ih _ _ path ?_ h
        intro n hn
        rcases expand_mem nd rest rs n hn with hin | ⟨m, rfl⟩
        · exact hq n (hperm.subset (by rw [hs]; exact List.mem_cons_of_mem _ hin))
        · exact wf_init_child _ nd _ hnd

/-! ## C1: structure of every returned path -/

/-- C1: any path returned by `resoudre` starts at a root node (`g = 0`,
no parent); each later node's parent is its predecessor and its `g` is the
predecessor's plus one; and the last node's board is solved. -/
theorem C1 (initial : Puzzle) (fuel : Nat) (path : List Noeud)
    (h : resoudre initial fuel = some (some path)) :
    path ≠ [] ∧
    (∀ hne : path ≠ [], (path.head hne).g = 0 ∧ (path.head hne).parent = none) ∧
    List.Chain' (fun a b => b.parent = some a ∧ b.g = a.g + 1) path ∧
    (∀ hne : path ≠ [], (path.getLast hne).puzzle.est_resolu = true) := by
  have h' : solveAux fuel [Noeud.init initial none none]
      [(Noeud.init initial none none).etat] = some (some path) := h
  obtain ⟨n, hwf, hres, rfl⟩ := solveAux_path_wf fuel _ _ path
    (by intro x hx; rcases List.mem_singleton.mp hx with rfl; exact wf_init_root _ _) h'
  exact ⟨chemin_ne_nil n, fun hne => chemin_head n hwf hne, chemin_chain n hwf,
    fun hne => by rw [chemin_getLast n hne]; exact hres⟩

/-- C1 witness: on the already-solved board the returned path is the
singleton root path. -/
theorem C1_witness : ([Noeud.init goalP none none] : List Noeud) ≠ [] :=
  (C1 goalP 1 [Noeud.init goalP none none] rfl).1

/-! ## The accepted children of one expansion round -/

/-- The children accepted by one round of the `for move, action` loop, in
enumeration order, together with the final visited set. -/
def genKids : List Mouvement → Puzzle → Noeud → List String → List Noeud × List String
  | [], _, _, rs => ([], rs)
  | m :: ms, p, nd, rs =>
    let enfant := Noeud.init (m.run p) (some nd) (some m.action)
    if rs.contains enfant.etat then genKids ms p nd rs
    else
      let r := genKids ms p nd (enfant.etat :: rs)
      (enfant :: r.1, r.2)

theorem foldl_expand_eq : ∀ (ms : List Mouvement) (p : Puzzle) (nd : Noeud)
    (q : List Noeud) (rs : List String),
    (ms.foldl (fun qr m =>
      let enfant := Noeud.init (m.run p) (some nd) (some m.action)
      if qr.2.contains enfant.etat then qr
      else (enfant :: qr.1, enfant.etat :: qr.2)) (q, rs)) =
    ((genKids ms p nd rs).1.reverse ++ q, (genKids ms p nd rs).2) := by
  intro ms
  induction ms with
  | nil => intro p nd q rs; simp [genKids]
  | cons m ms ih =>
    intro p nd q rs
    by_cases hc : rs.contains (Noeud.init (m.run p) (some nd) (some m.action)).etat <;>
      simp only [List.foldl_cons, genKids, hc, if_true, if_false]
    · exact ih p nd q rs
    · rw [ih p nd _ _]
      simp

theorem expand_eq (nd : Noeud) (q : List Noeud) (rs : List String) :
    expand nd q rs = ((genKids nd.puzzle.actions nd.puzzle nd rs).1.reverse ++ q,
      (genKids nd.puzzle.actions nd.puzzle nd rs).2) :=
  foldl_expand_eq nd.puzzle.actions nd.puzzle nd q rs

theorem genKids_spec : ∀ (ms : List Mouvement) (p : Puzzle) (nd : Noeud)
    (rs : List String),
    (∀ s, s ∈ (genKids ms p nd rs).2 ↔
      s ∈ rs ∨ ∃ n ∈ (genKids ms p nd rs).1, n.etat = s) ∧
    (rs.Nodup → (genKids ms p nd rs).2.Nodup) ∧
    (∀ n ∈ (genKids ms p nd rs).1, n.etat ∉ rs ∧
      ∃ m ∈ ms, n = Noeud.init (m.run p) (some nd) (some m.action)) ∧
    ((genKids ms p nd rs).1.map Noeud.etat).Nodup ∧
    (genKids ms p nd rs).2.length = rs.length + (genKids ms p nd rs).1.length ∧
    (∀ m ∈ ms, (Noeud.init (m.run p) (some nd) (some m.action)).etat ∈
      (genKids ms p nd rs).2) := by
  intro ms
  induction ms with
  | nil =>
    intro p nd rs
    simp [genKids]
  | cons m ms ih =>
    intro p nd rs
    by_cases hc : rs.contains (Noeud.init (m.run p) (some nd) (some m.action)).etat
    · have hmem : (Noeud.init (m.run p) (some nd) (some m.action)).etat ∈ rs :=
        List.elem_iff.mp hc
      obtain ⟨i1, i2, i3, i4, i5, i6⟩ := ih p nd rs
      have hg : genKids (m :: ms) p nd rs = genKids ms p nd rs := by
        show (if rs.contains (Noeud.init (m.run p) (some nd) (some m.action)).etat
          then genKids ms p nd rs
          else ((Noeud.init (m.run p) (some nd) (some m.action)) ::
              (genKids ms p nd ((Noeud.init (m.run p) (some nd) (some m.action)).etat :: rs)).1,
            (genKids ms p nd ((Noeud.init (m.run p) (some nd) (some m.action)).etat :: rs)).2)) = _
        rw [if_pos hc]
      rw [hg]
      refine ⟨i1, i2, ?_, i4, i5, ?_⟩
      · intro n hn
        obtain ⟨h1, m', hm', he⟩ := i3 n hn
        exact ⟨h1, m', List.mem_cons_of_mem _ hm', he⟩
      · intro m' hm'
        rcases List.mem_cons.mp hm' with rfl | hm'
        · exact (i1 _).mpr (Or.inl hmem)
        · exact i6 m' hm'
    · have hmem : (Noeud.init (m.run p) (some nd) (some m.action)).etat ∉ rs :=
        fun hin => hc (List.elem_iff.mpr hin)
      obtain ⟨i1, i2, i3, i4, i5, i6⟩ := ih p nd
        ((Noeud.init (m.run p) (some nd) (some m.action)).etat :: rs)
      have hg : genKids (m :: ms) p nd rs =
          ((Noeud.init (m.run p) (some nd) (some m.action)) ::
              (genKids ms p nd ((Noeud.init (m.run p) (some nd) (some m.action)).etat :: rs)).1,
            (genKids ms p nd ((Noeud.init (m.run p) (some nd) (some m.action)).etat :: rs)).2) := by
        show (if rs.contains (Noeud.init (m.run p) (some nd) (some m.action)).etat
          then genKids ms p nd rs
          else ((Noeud.init (m.run p) (some nd) (some m.action)) ::
              (genKids ms p nd ((Noeud.init (m.run p) (some nd) (some m.action)).etat :: rs)).1,
            (genKids ms p nd ((Noeud.init (m.run p) (some nd) (some m.action)).etat :: rs)).2)) = _
        rw [if_neg hc]
      rw [hg]
      refine ⟨?_, ?_, ?_, ?_, ?_, ?_⟩
      · intro s
        rw [i1 s]
        simp only [List.mem_cons]
        constructor
        · rintro ((rfl | hs) | ⟨n, hn, hns⟩)
          · exact Or.inr ⟨Noeud.init (m.run p) (some nd) (some m.action), by simp, rfl⟩
          · exact Or.inl hs
          · exact Or.inr ⟨n, by simp [hn], hns⟩
        · rintro (hs | ⟨n, hn, hns⟩)
          · exact Or.inl (Or.inr hs)
          · rcases hn with rfl | hn
            · exact Or.inl (Or.inl hns.symm)
            · exact Or.inr ⟨n, hn, hns⟩
      · intro hnd
        exact i2 (by simp [hnd, hmem])
      · intro n hn
        rcases List.mem_cons.mp hn with rfl | hn
        · exact ⟨hmem, m, by simp, rfl⟩
        · obtain ⟨hna, m', hm', hne⟩ := i3 n hn
          exact ⟨fun hin => hna (by simp [hin]), m', by simp [hm'], hne⟩
      · simp only [List.map_cons, List.nodup_cons]
        refine ⟨?_, i4⟩
        intro hin
        rcases List.mem_map.mp hin with ⟨n, hn, hns⟩
        exact (i3 n hn).1 (by simp [hns])
      · simp only [List.length_cons] at *
        omega
      · intro m' hm'
        rcases List.mem_cons.mp hm' with rfl | hm'
        · exact (i1 _).mpr (Or.inl (by simp))
        · exact i6 m' hm'

/-! ## C6: the visited-set discipline -/

/-- C6: keys enter `rs` exactly when a node is inserted (the root before the
loop, children at generation time) and never when a node is popped.  The
theorem packages: (1) the seeded state — `resoudre` starts with queue
`[root]` and `rs = [root key]`, which satisfy the invariant; (2) one loop
iteration (pop the head of the sorted queue, expand it) preserves the
invariant that every queued node's key is in `rs` and queued keys are
pairwise distinct; moreover `rs` only grows, every new `rs` entry is the key
of a newly inserted node that was not in `rs` before (so no state is ever
represented by two inserted nodes), and every inserted node's key is fresh
and recorded. -/
theorem C6 :
    (∀ (initial : Puzzle) (fuel : Nat),
      resoudre initial fuel = solveAux fuel [Noeud.init initial none none]
        [(Noeud.init initial none none).etat]) ∧
    (∀ initial : Puzzle,
      (∀ n ∈ [Noeud.init initial none none],
        n.etat ∈ [(Noeud.init initial none none).etat]) ∧
      ([Noeud.init initial none none].map Noeud.etat).Nodup ∧
      [(Noeud.init initial none none).etat].Nodup) ∧
    (∀ (q : List Noeud) (rs : List String),
      (∀ n ∈ q, n.etat ∈ rs) → (q.map Noeud.etat).Nodup → rs.Nodup →
      ∀ noeud rest, sortByF q = noeud :: rest →
        (∀ n ∈ (expand noeud rest rs).1, n.etat ∈ (expand noeud rest rs).2) ∧
        ((expand noeud rest rs).1.map Noeud.etat).Nodup ∧
        (expand noeud rest rs).2.Nodup ∧
        (∀ s ∈ rs, s ∈ (expand noeud rest rs).2) ∧
        (∀ s ∈ (expand noeud rest rs).2, s ∈ rs ∨
          (s ∉ rs ∧ ∃ n ∈ (expand noeud rest rs).1, n ∉ rest ∧ n.etat = s)) ∧
        (∀ n ∈ (expand noeud rest rs).1, n ∈ rest ∨
          (n.etat ∉ rs ∧ n.etat ∈ (expand noeud rest rs).2))) := by
  refine ⟨fun _ _ => rfl, fun initial => ⟨by simp, by simp, by simp⟩, ?_⟩
  intro q rs hkeys hqnd hrsnd noeud rest hs
  obtain ⟨i1, i2, i3, i4, i5, i6⟩ :=
    genKids_spec noeud.puzzle.actions noeud.puzzle noeud rs
  have hexp := expand_eq noeud rest rs
  have hperm : (sortByF q).Perm q := List.perm_insertionSort _ q
  have hrest : ∀ n ∈ rest, n.etat ∈ rs := fun n hn =>
    hkeys n (hperm.subset (by rw [hs]; exact List.mem_cons_of_mem _ hn))
  have hrestnd : (rest.map Noeud.etat).Nodup := by
    have h1 : ((sortByF q).map Noeud.etat).Nodup :=
      ((hperm.map Noeud.etat).nodup_iff).mpr hqnd
    rw [hs] at h1
    exact (List.nodup_cons.mp h1).2
  have hkid_mem : ∀ n, n ∈ (expand noeud rest rs).1 ↔
      n ∈ (genKids noeud.puzzle.actions noeud.puzzle noeud rs).1 ∨ n ∈ rest := by
    intro n
    rw [hexp]
    simp
  have hrs_eq : (expand noeud rest rs).2 =
      (genKids noeud.puzzle.actions noeud.puzzle noeud rs).2 := by rw [hexp]
  refine ⟨?_, ?_, ?_, ?_, ?_, ?_⟩
  · intro n hn
    rw [hrs_eq]
    rcases (hkid_mem n).mp hn with hk | hr
    · exact (i1 _).mpr (Or.inr ⟨n, hk, rfl⟩)
    · exact (i1 _).mpr (Or.inl (hrest n hr))
  · rw [hexp]
    simp only [List.map_append, List.map_reverse]
    refine List.Nodup.append (by simp [i4]) hrestnd ?_
    intro s hks hrs2
    simp only [List.mem_reverse, List.mem_map] at hks
    obtain ⟨n, hn, rfl⟩ := hks
    obtain ⟨n2, hn2, he2⟩ := List.mem_map.mp hrs2
    exact (i3 n hn).1 (he2 ▸ hrest n2 hn2)
  · rw [hrs_eq]; exact i2 hrsnd
  · intro s hsin
    rw [hrs_eq]
    exact (i1 _).mpr (Or.inl hsin)
  · intro s hsin
    rw [hrs_eq] at hsin
    rcases (i1 s).mp hsin with hold | ⟨n, hn, hns⟩
    · exact Or.inl hold
    · have hfresh : s ∉ rs := hns ▸ (i3 n hn).1
      refine Or.inr ⟨hfresh, n, (hkid_mem n).mpr (Or.inl hn), ?_, hns⟩
      intro hinrest
      exact hfresh (hns ▸ hrest n hinrest)
  · intro n hn
    rcases (hkid_mem n).mp hn with hk | hr
    · refine Or.inr ⟨(i3 n hk).1, ?_⟩
      rw [hrs_eq]
      exact (i1 _).mpr (Or.inr ⟨n, hk, rfl⟩)
    · exact Or.inl hr

/-- C6 witness: one expansion step from the seeded state on the goal
board keeps queue keys pairwise distinct. -/
theorem C6_witness :
    ((expand (Noeud.init goalP none none) []
      [(Noeud.init goalP none none).etat]).1.map Noeud.etat).Nodup :=
  (C6.2.2 [Noeud.init goalP none none] [(Noeud.init goalP none none).etat]
    (by simp) (by simp) (by simp) (Noeud.init goalP none none) [] rfl).2.1

/-! ## Sorting facts for the frontier -/

instance instTotalF : IsTotal Noeud (fun a b => a.f ≤ b.f) :=
  ⟨fun a b => Nat.le_total a.f b.f⟩

instance instTransF : IsTrans Noeud (fun a b => a.f ≤ b.f) :=
  ⟨fun _ _ _ => Nat.le_trans⟩

theorem sortByF_sorted (q : List Noeud) :
    List.Sorted (fun a b : Noeud => a.f ≤ b.f) (sortByF q) :=
  List.sorted_insertionSort _ q

theorem orderedInsert_filter (x : Noeud) (v : Nat) : ∀ l : List Noeud,
    (List.orderedInsert (fun a b => a.f ≤ b.f) x l).filter (fun n => n.f == v) =
      if x.f = v then x :: l.filter (fun n => n.f == v)
      else l.filter (fun n => n.f == v) := by
  intro l
  induction l with
  | nil =>
    by_cases hv : x.f = v <;> simp [List.orderedInsert, List.filter_cons, hv]
  | cons b l ih =>
    show ((if x.f ≤ b.f then x :: b :: l
        else b :: List.orderedInsert (fun a b => a.f ≤ b.f) x l).filter
          (fun n => n.f == v)) = _
    by_cases hle : x.f ≤ b.f
    · rw [if_pos hle]
      by_cases hv : x.f = v <;> simp [List.filter_cons, hv]
    · rw [if_neg hle]
      by_cases hv : x.f = v <;> by_cases hbv : b.f = v <;>
        simp [List.filter_cons, hv, hbv, ih] <;> omega

theorem sortByF_filter (q : List Noeud) (v : Nat) :
    (sortByF q).filter (fun n => n.f == v) = q.filter (fun n => n.f == v) := by
  induction q with
  | nil => rfl
  | cons x l ih =>
    show ((List.orderedInsert (fun a b => a.f ≤ b.f) x (sortByF l)).filter
      (fun n => n.f == v)) = _
    rw [orderedInsert_filter x v (sortByF l), ih]
    by_cases hv : x.f = v <;> simp [List.filter_cons, hv]

/-! ## C5: which node each iteration removes -/

/-- C5: the popped node (the head of the stably sorted queue) has minimal
`f` among all pending nodes; the stable sort keeps, within every class of
equal `f`, exactly the previous deque order — and since every insertion is
an `appendleft`, deque order is reverse insertion order, so later-inserted
nodes of equal `f` are popped first; and one expansion round leaves the
accepted children at the front of the deque in the reverse of the order in
which `actions` enumerated their moves. -/
theorem C5 :
    (∀ (q : List Noeud) (noeud : Noeud) (rest : List Noeud),
      sortByF q = noeud :: rest → ∀ m ∈ q, noeud.f ≤ m.f) ∧
    (∀ (q : List Noeud) (v : Nat),
      (sortByF q).filter (fun n => n.f == v) = q.filter (fun n => n.f == v)) ∧
    (∀ (noeud : Noeud) (rest : List Noeud) (rs : List String),
      (expand noeud rest rs).1 =
        (genKids noeud.puzzle.actions noeud.puzzle noeud rs).1.reverse ++ rest) := by
  refine ⟨?_, sortByF_filter, ?_⟩
  · intro q noeud rest hs m hm
    have hsort := sortByF_sorted q
    rw [hs] at hsort
    have hperm : (sortByF q).Perm q := List.perm_insertionSort _ q
    have hm' : m ∈ noeud :: rest := by
      rw [← hs]
      exact (hperm.mem_iff).mpr hm
    rcases List.mem_cons.mp hm' with rfl | hin
    · exact Nat.le_refl _
    · exact (List.pairwise_cons.mp hsort).1 m hin
  · intro noeud rest rs
    rw [expand_eq]

/-- C5 witness on the singleton queue holding the goal root. -/
theorem C5_witness : (Noeud.init goalP none none).f ≤ (Noeud.init goalP none none).f :=
  C5.1 [Noeud.init goalP none none] (Noeud.init goalP none none) [] rfl
    (Noeud.init goalP none none) (by simp)

/-! ## A finite universe of board keys -/

/-- All lists of a given length over the digits `0..8`. -/
def listsLen : Nat → List (List Nat)
  | 0 => [[]]
  | n + 1 => (List.range 9).flatMap (fun v => (listsLen n).map (fun l => v :: l))

theorem mem_listsLen : ∀ (n : Nat) (l : List Nat), l.length = n →
    (∀ v ∈ l, v < 9) → l ∈ listsLen n := by
  intro n
  induction n with
  | zero =>
    intro l h _
    simp [listsLen, List.length_eq_zero.mp h]
  | succ n ih =>
    intro l hlen hv
    cases l with
    | nil => simp at hlen
    | cons x xs =>
      simp only [listsLen, List.mem_flatMap, List.mem_map, List.mem_range]
      exact ⟨x, hv x (by simp), xs,
        ih xs (by simpa using hlen) (fun v hv2 => hv v (by simp [hv2])), rfl⟩

/-- The (finite) universe of keys of 3x3 boards over digits `0..8`. -/
def univ9 : List String := (listsLen 9).map strOfList

/-- The shape invariant the search preserves: a 3x3 grid with entries
below 9 (weaker than `valid3`, but closed under arbitrary `move`s). -/
def shape9 (p : Puzzle) : Prop := shape3 p.table ∧ ∀ v ∈ p.table.flatten, v < 9

theorem mem_flatten_setCell (t : Table) (i j v : Nat) (x : Nat)
    (hx : x ∈ (setCell t i j v).flatten) : x ∈ t.flatten ∨ x = v := by
  obtain ⟨r, hr, hxr⟩ := List.mem_flatten.mp hx
  rcases List.mem_or_eq_of_mem_set hr with hrt | hreq
  · exact Or.inl (List.mem_flatten.mpr ⟨r, hrt, hxr⟩)
  · subst hreq
    rcases List.mem_or_eq_of_mem_set hxr with hxrow | hxv
    · rcases Nat.lt_or_ge i t.length with hi | hi
      · have hrow : t.getD i [] ∈ t := by
          rw [List.getD_eq_getElem?_getD, List.getElem?_eq_getElem hi]
          exact List.getElem_mem hi
        exact Or.inl (List.mem_flatten.mpr ⟨_, hrow, hxrow⟩)
      · rw [List.getD_eq_default _ _ hi] at hxrow
        simp at hxrow
    · exact Or.inr hxv

theorem getD_mem_of_lt {α : Type} (l : List α) (d : α) (b : Nat)
    (hb : b < l.length) : l.getD b d ∈ l := by
  rw [List.getD_eq_getElem?_getD, List.getElem?_eq_getElem hb]
  exact List.getElem_mem hb

theorem getCell_mem_or_zero (t : Table) (a b : Nat) :
    getCell t a b ∈ t.flatten ∨ getCell t a b = 0 := by
  rcases Nat.lt_or_ge a t.length with ha | ha
  · rcases Nat.lt_or_ge b (t.getD a []).length with hb | hb
    · exact Or.inl (List.mem_flatten.mpr
        ⟨t.getD a [], getD_mem_of_lt t [] a ha, getD_mem_of_lt _ 0 b hb⟩)
    · exact Or.inr (List.getD_eq_default _ _ hb)
  · right
    show (t.getD a []).getD b 0 = 0
    rw [List.getD_eq_default _ _ ha]
    simp

theorem shape9_move (p : Puzzle) (h : shape9 p) (q1 q2 : Nat × Nat) :
    shape9 (p.move q1 q2) := by
  refine ⟨shape3_move p h.1 q1 q2, ?_⟩
  intro v hv
  rw [move_table] at hv
  rcases mem_flatten_setCell _ _ _ _ _ hv with hv1 | hv1
  · rcases mem_flatten_setCell _ _ _ _ _ hv1 with hv2 | hv2
    · exact h.2 v hv2
    · subst hv2
      rcases getCell_mem_or_zero p.table q2.1 q2.2 with hm | hm
      · exact h.2 _ hm
      · omega
  · subst hv1
    rcases getCell_mem_or_zero p.table q1.1 q1.2 with hm | hm
    · exact h.2 _ hm
    · omega

theorem pstr_mem_univ9 (p : Puzzle) (h : shape9 p) : p.pstr ∈ univ9 :=
  List.mem_map.mpr ⟨p.table.flatten,
    mem_listsLen 9 _ (flatten_length3 _ h.1) h.2, rfl⟩

theorem rs_bound (rs : List String) (h1 : rs.Nodup) (h2 : ∀ s ∈ rs, s ∈ univ9) :
    rs.length ≤ univ9.length :=
  (List.subperm_of_subset h1 h2).length_le

/-! ## Termination of the search loop -/

/-- The termination measure: the visited set can only grow inside a finite
universe, and when nothing is added the queue shrinks. -/
def stepMeasure (q : List Noeud) (rs : List String) : Nat :=
  2 * (univ9.length + 1 - rs.length) + q.length

theorem solveAux_total : ∀ (fuel : Nat) (q : List Noeud) (rs : List String),
    rs.Nodup → (∀ s ∈ rs, s ∈ univ9) →
    (∀ n ∈ q, n.etat ∈ rs ∧ shape9 n.puzzle) →
    stepMeasure q rs ≤ fuel → (solveAux fuel q rs).isSome := by
  intro fuel
  induction fuel with
  | zero =>
    intro q rs h1 h2 h3 hM
    exfalso
    have hb := rs_bound rs h1 h2
    unfold stepMeasure at hM
    omega
  | succ fuel ih =>
    intro q rs h1 h2 h3 hM
    cases hs : sortByF q with
    | nil => rw [solveAux_succ_nil fuel q rs hs]; simp
    | cons noeud rest =>
      rw [solveAux_succ_cons fuel q rs noeud rest hs]
      by_cases hres : noeud.est_resolu = true
      · rw [if_pos hres]; simp
      · rw [if_neg hres]
        obtain ⟨i1, i2, i3, i4, i5, i6⟩ :=
          genKids_spec noeud.puzzle.actions noeud.puzzle noeud rs
        have hperm : (sortByF q).Perm q := List.perm_insertionSort _ q
        have hnoeud := h3 noeud (hperm.subset (by rw [hs]; exact List.mem_cons_self _ _))
        have hrest : ∀ n ∈ rest, n.etat ∈ rs ∧ shape9 n.puzzle := fun n hn =>
          h3 n (hperm.subset (by rw [hs]; exact List.mem_cons_of_mem _ hn))
        have hrs_eq : (expand noeud rest rs).2 =
            (genKids noeud.puzzle.actions noeud.puzzle noeud rs).2 := by
          rw [expand_eq]
        have hkid_mem : ∀ n, n ∈ (expand noeud rest rs).1 ↔
            n ∈ (genKids noeud.puzzle.actions noeud.puzzle noeud rs).1 ∨ n ∈ rest := by
          intro n
          rw [expand_eq]
          simp
        have hkshape : ∀ n ∈ (genKids noeud.puzzle.actions noeud.puzzle noeud rs).1,
            shape9 n.puzzle := by
          intro n hn
          obtain ⟨-, m, -, rfl⟩ := i3 n hn
          exact shape9_move _ hnoeud.2 _ _
        have h2' : ∀ s ∈ (expand noeud rest rs).2, s ∈ univ9 := by
          intro s hsin
          rw [hrs_eq] at hsin
          rcases (i1 s).mp hsin with hold | ⟨n, hn, hns⟩
          · exact h2 s hold
          · rw [← hns]
            exact pstr_mem_univ9 _ (hkshape n hn)
        have h1' : (expand noeud rest rs).2.Nodup := by rw [hrs_eq]; exact i2 h1
        have h3' : ∀ n ∈ (expand noeud rest rs).1,
            n.etat ∈ (expand noeud rest rs).2 ∧ shape9 n.puzzle := by
          intro n hn
          rcases (hkid_mem n).mp hn with hk | hr
          · exact ⟨by rw [hrs_eq]; exact (i1 _).mpr (Or.inr ⟨n, hk, rfl⟩), hkshape n hk⟩
          · exact ⟨by rw [hrs_eq]; exact (i1 _).mpr (Or.inl (hrest n hr).1), (hrest n hr).2⟩
        have hql : rest.length + 1 = q.length := by
          have hl := hperm.length_eq
          rw [hs] at hl
          simpa using hl
        have hbound : (expand noeud rest rs).2.length ≤ univ9.length :=
          rs_bound _ h1' h2'
        have hexpq : (expand noeud rest rs).1.length =
            (genKids noeud.puzzle.actions noeud.puzzle noeud rs).1.length + rest.length := by
          rw [expand_eq]
          simp
        have hM' : stepMeasure (expand noeud rest rs).1 (expand noeud rest rs).2 ≤ fuel := by
          unfold stepMeasure at hM ⊢
          rw [hrs_eq] at hbound ⊢
          rw [hexpq]
          omega
        exact ih _ _ h1' h2' h3' hM'

/-! ## C2: the search always terminates -/

/-- C2: for every valid 3x3 initial board the loop terminates: some finite
fuel makes `solveAux` return an actual result (never the fuel-out `none`),
and that result is either an absent path (`Exhausted`, the queue emptied)
or a returned path (`Solved`); the embedding is total, so no internal
error can occur. -/
theorem C2 (p : Puzzle) (hv : valid3 p) :
    ∃ (fuel : Nat) (r : Option (List Noeud)), resoudre p fuel = some r ∧
      (r = none ∨ ∃ path, r = some path) := by
  have hsh : shape9 p := ⟨valid3_shape3 p hv, valid3_lt p hv⟩
  have h := solveAux_total
    (stepMeasure [Noeud.init p none none] [(Noeud.init p none none).etat])
    [Noeud.init p none none] [(Noeud.init p none none).etat]
    (by simp)
    (by
      intro s hsin
      rcases List.mem_singleton.mp hsin with rfl
      exact pstr_mem_univ9 p hsh)
    (by
      intro n hn
      rcases List.mem_singleton.mp hn with rfl
      exact ⟨by simp, hsh⟩)
    (Nat.le_refl _)
  obtain ⟨r, hr⟩ := Option.isSome_iff_exists.mp h
  have hres : resoudre p
      (stepMeasure [Noeud.init p none none] [(Noeud.init p none none).etat]) =
      some r := hr
  refine ⟨_, r, hres, ?_⟩
  cases r with
  | none => exact Or.inl rfl
  | some path => exact Or.inr ⟨path, rfl⟩

/-- C2 witness at the goal board. -/
theorem C2_witness : ∃ (fuel : Nat) (r : Option (List Noeud)),
    resoudre goalP fuel = some r ∧ (r = none ∨ ∃ path, r = some path) :=
  C2 goalP (by decide)

/-! ## Reachability and reversibility of moves -/

theorem mem_actions_facts (p : Puzzle) (hv : valid3 p) (m : Mouvement)
    (hm : m ∈ p.actions) :
    m.p1.1 < 3 ∧ m.p1.2 < 3 ∧ m.p2.1 < 3 ∧ m.p2.2 < 3 ∧
    getCell p.table m.p2.1 m.p2.2 = 0 ∧
    ¬(m.p1.1 = m.p2.1 ∧ m.p1.2 = m.p2.2) ∧ adjacent m.p1 m.p2 := by
  obtain ⟨bi, bj, hbi, hbj, hb, hu⟩ := exists_blank p hv
  have hchar := actions_char p hv.1 bi bj hbi hbj hb hu
  rw [hchar] at hm
  have key : ∀ x ∈ expectedActions bi bj, x.p1.1 < 3 ∧ x.p1.2 < 3 ∧
      x.p2 = (bi, bj) ∧ ¬(x.p1.1 = bi ∧ x.p1.2 = bj) ∧ adjacent x.p1 x.p2 := by
    interval_cases bi <;> interval_cases bj <;> decide
  obtain ⟨h1, h2, hp2, hne, hadj⟩ := key m hm
  exact ⟨h1, h2, by rw [hp2]; exact hbi, by rw [hp2]; exact hbj,
    by rw [hp2]; exact hb, by rw [hp2]; exact hne, hadj⟩

theorem valid3_run (p : Puzzle) (hv : valid3 p) (m : Mouvement)
    (hm : m ∈ p.actions) : valid3 (m.run p) := by
  obtain ⟨h11, h12, h21, h22, -, -, -⟩ := mem_actions_facts p hv m hm
  exact valid3_move p hv m.p1 m.p2 h11 h12 h21 h22

theorem adjacent_symm (a b : Nat × Nat) (h : adjacent a b) : adjacent b a := by
  unfold adjacent at *
  omega

theorem mem_expectedActions (bi bj : Nat) (hbi : bi < 3) (hbj : bj < 3)
    (c : Nat × Nat) (hc1 : c.1 < 3) (hc2 : c.2 < 3) (hadj : adjacent c (bi, bj)) :
    ∃ lab, (⟨c, (bi, bj), lab⟩ : Mouvement) ∈ expectedActions bi bj := by
  obtain ⟨x, y⟩ := c
  unfold adjacent at hadj
  simp only at hadj hc1 hc2
  have hcases : (x + 1 = bi ∧ y = bj) ∨ (x = bi + 1 ∧ y = bj) ∨
      (y + 1 = bj ∧ x = bi) ∨ (y = bj + 1 ∧ x = bi) := by omega
  rcases hcases with ⟨hx, hy⟩ | ⟨hx, hy⟩ | ⟨hy, hx⟩ | ⟨hy, hx⟩
  · refine ⟨"H", ?_⟩
    have h1 : 1 ≤ bi := by omega
    have h2 : bi - 1 = x := by omega
    subst hy
    simp [expectedActions, h1, h2]
  · refine ⟨"B", ?_⟩
    have h1 : bi + 1 ≤ 2 := by omega
    subst hy hx
    simp [expectedActions, h1]
  · refine ⟨"G", ?_⟩
    have h1 : 1 ≤ bj := by omega
    have h2 : bj - 1 = y := by omega
    subst hx
    simp [expectedActions, h1, h2]
  · refine ⟨"D", ?_⟩
    have h1 : bj + 1 ≤ 2 := by omega
    subst hx hy
    simp [expectedActions, h1]

theorem reverse_move (p : Puzzle) (hv : valid3 p) (m : Mouvement)
    (hm : m ∈ p.actions) :
    ∃ m2 ∈ (m.run p).actions, m2.run (m.run p) = p := by
  obtain ⟨h11, h12, h21, h22, hblank, hne, hadj⟩ := mem_actions_facts p hv m hm
  have hv2 : valid3 (m.run p) := valid3_run p hv m hm
  have hsh := valid3_shape3 p hv
  obtain ⟨f1, f2, f3, f4⟩ := mouvement_facts p hsh m.p1 m.p2 h11 h12 h21 h22 hne hblank
  obtain ⟨bi, bj, hbi, hbj, hb, hu⟩ := exists_blank (m.run p) hv2
  obtain ⟨e1, e2⟩ := hu m.p1.1 m.p1.2 h11 h12 f1
  have hchar := actions_char (m.run p) hv2.1 bi bj hbi hbj hb hu
  obtain ⟨lab, hlab⟩ := mem_expectedActions bi bj hbi hbj m.p2 h21 h22
    (by rw [← e1, ← e2]; exact adjacent_symm _ _ hadj)
  refine ⟨⟨m.p2, (bi, bj), lab⟩, by rw [hchar]; exact hlab, ?_⟩
  show (m.run p).move m.p2 (bi, bj) = p
  have hpair : (bi, bj) = m.p1 := by
    calc (bi, bj) = (m.p1.1, m.p1.2) := by rw [e1, e2]
      _ = m.p1 := Prod.mk.eta
  rw [hpair]
  have hshc := valid3_shape3 _ hv2
  calc (m.run p).move m.p2 m.p1
      = (m.run p).move m.p1 m.p2 := move_symm _ hshc m.p2 m.p1 h21 h22 h11 h12
    _ = p := f4

/-- Boards reachable from `p0` by finitely many legal moves. -/
inductive ReachableFrom (p0 : Puzzle) : Puzzle → Prop where
  | base : ReachableFrom p0 p0
  | step : ∀ {p : Puzzle} {m : Mouvement}, ReachableFrom p0 p → m ∈ p.actions →
      ReachableFrom p0 (m.run p)

theorem reachable_valid (p0 : Puzzle) (hv : valid3 p0) :
    ∀ p, ReachableFrom p0 p → valid3 p := by
  intro p h
  induction h with
  | base => exact hv
  | step hr hm ih => exact valid3_run _ ih _ hm

theorem reachable_head (p0 p1 q : Puzzle) (m : Mouvement) (hm : m ∈ p0.actions)
    (hp1 : m.run p0 = p1) (h : ReachableFrom p1 q) : ReachableFrom p0 q := by
  induction h with
  | base => exact hp1 ▸ ReachableFrom.step ReachableFrom.base hm
  | step hr hm2 ih => exact .step ih hm2

theorem reachable_symm (p0 : Puzzle) (hv : valid3 p0) :
    ∀ p, ReachableFrom p0 p → ReachableFrom p p0 := by
  intro p h
  induction h with
  | base => exact .base
  | @step p2 m hr hm ih =>
    have hvp2 : valid3 p2 := reachable_valid p0 hv p2 hr
    obtain ⟨m2, hm2, hrun⟩ := reverse_move p2 hvp2 m hm
    exact reachable_head (m.run p2) p2 p0 m2 hm2 hrun ih

theorem table_eq_of_pstr (p q : Puzzle) (hp : valid3 p) (hq : valid3 q)
    (h : p.pstr = q.pstr) : p.table = q.table := by
  have hfl := strOfList_inj p.table.flatten q.table.flatten
    (fun v hv' => Nat.lt_trans (valid3_lt p hp v hv') (by omega))
    (fun v hv' => Nat.lt_trans (valid3_lt q hq v hv') (by omega)) h
  obtain ⟨a1, a2, a3, b1, b2, b3, c1, c2, c3, ht⟩ := valid3_destruct p hp
  obtain ⟨d1, d2, d3, e1, e2, e3, f1, f2, f3, ht2⟩ := valid3_destruct q hq
  rw [ht, ht2] at hfl ⊢
  simp only [List.flatten] at hfl
  simp_all

theorem puzzle_eq_of_pstr (p q : Puzzle) (hp : valid3 p) (hq : valid3 q)
    (h : p.pstr = q.pstr) : p = q := by
  have htab := table_eq_of_pstr p q hp hq h
  have hlar : p.largeur = q.largeur := by rw [hp.1, hq.1]
  cases p
  cases q
  simp_all

/-! ## Exhaustion is impossible when the goal is reachable -/

/-- A visited key is closed when it is the key of a valid non-goal board all
of whose successors' keys are also visited. -/
def Closed (s : String) (rs : List String) : Prop :=
  ∃ b : Puzzle, valid3 b ∧ b.pstr = s ∧ b.est_resolu = false ∧
    ∀ m ∈ b.actions, (m.run b).pstr ∈ rs

theorem closed_mono (s : String) (rs rs2 : List String) (h : Closed s rs)
    (hsub : ∀ x ∈ rs, x ∈ rs2) : Closed s rs2 := by
  obtain ⟨b, h1, h2, h3, h4⟩ := h
  exact ⟨b, h1, h2, h3, fun m hm => hsub _ (h4 m hm)⟩

theorem solveAux_exhaust : ∀ (fuel : Nat) (q : List Noeud) (rs : List String),
    (∀ n ∈ q, valid3 n.puzzle) →
    (∀ s ∈ rs, (∃ n ∈ q, n.etat = s) ∨ Closed s rs) →
    solveAux fuel q rs = some none →
    ∃ rsF, (∀ s ∈ rs, s ∈ rsF) ∧ (∀ s ∈ rsF, Closed s rsF) := by
  intro fuel
  induction fuel with
  | zero => intro q rs _ _ h; simp [solveAux] at h
  | succ fuel ih =>
    intro q rs hval hinv h
    cases hs : sortByF q with
    | nil =>
      have hq : q = [] := by
        have hl : (sortByF q).length = q.length :=
          (List.perm_insertionSort (fun a b : Noeud => a.f ≤ b.f) q).length_eq
        rw [hs] at hl
        exact List.length_eq_zero.mp hl.symm
      refine ⟨rs, fun s hsin => hsin, fun s hsin => ?_⟩
      rcases hinv s hsin with ⟨n, hn, -⟩ | hc
      · rw [hq] at hn; simp at hn
      · exact hc
    | cons noeud rest =>
      rw [solveAux_succ_cons fuel q rs noeud rest hs] at h
      by_cases hres : noeud.est_resolu = true
      · rw [if_pos hres] at h
        simp at h
      · rw [if_neg hres] at h
        obtain ⟨i1, i2, i3, i4, i5, i6⟩ :=
          genKids_spec noeud.puzzle.actions noeud.puzzle noeud rs
        have hperm : (sortByF q).Perm q := List.perm_insertionSort _ q
        have hvnoeud : valid3 noeud.puzzle :=
          hval noeud (hperm.subset (by rw [hs]; exact List.mem_cons_self _ _))
        have hrs_eq : (expand noeud rest rs).2 =
            (genKids noeud.puzzle.actions noeud.puzzle noeud rs).2 := by
          rw [expand_eq]
        have hkid_mem : ∀ n, n ∈ (expand noeud rest rs).1 ↔
            n ∈ (genKids noeud.puzzle.actions noeud.puzzle noeud rs).1 ∨ n ∈ rest := by
          intro n
          rw [expand_eq]
          simp
        have hsub : ∀ x ∈ rs, x ∈ (expand noeud rest rs).2 := by
          intro x hx
          rw [hrs_eq]
          exact (i1 _).mpr (Or.inl hx)
        have hval2 : ∀ n ∈ (expand noeud rest rs).1, valid3 n.puzzle := by
          intro n hn
          rcases (hkid_mem n).mp hn with hk | hr2
          · obtain ⟨-, m, hmact, rfl⟩ := i3 n hk
            exact valid3_run _ hvnoeud m hmact
          · exact hval n (hperm.subset (by rw [hs]; exact List.mem_cons_of_mem _ hr2))
        have hresf : noeud.puzzle.est_resolu = false := by
          revert hres
          cases hb : noeud.puzzle.est_resolu
          · intro _; rfl
          · intro hcon
            exact absurd hb hcon
        have hclosed_noeud : Closed noeud.etat (expand noeud rest rs).2 := by
          refine ⟨noeud.puzzle, hvnoeud, rfl, hresf, ?_⟩
          intro m hmact
          rw [hrs_eq]
          exact i6 m hmact
        have hinv2 : ∀ s ∈ (expand noeud rest rs).2,
            (∃ n ∈ (expand noeud rest rs).1, n.etat = s) ∨
              Closed s (expand noeud rest rs).2 := by
          intro s hsin
          rw [hrs_eq] at hsin
          rcases (i1 s).mp hsin with hold | ⟨n, hn, hns⟩
          · rcases hinv s hold with ⟨n, hn, hns⟩ | hc
            · have hn' : n ∈ sortByF q := (hperm.mem_iff).mpr hn
              rw [hs] at hn'
              rcases List.mem_cons.mp hn' with rfl | hn2
              · exact Or.inr (hns ▸ hclosed_noeud)
              · exact Or.inl ⟨n, (hkid_mem n).mpr (Or.inr hn2), hns⟩
            · exact Or.inr (closed_mono s rs _ hc hsub)
          · exact Or.inl ⟨n, (hkid_mem n).mpr (Or.inl hn), hns⟩
        obtain ⟨rsF, hsubF, hclosedF⟩ := ih _ _ hval2 hinv2 h
        exact ⟨rsF, fun s hsin => hsubF s (hsub s hsin), hclosedF⟩

/-- Sufficient fuel always produces a result (shared helper). -/
theorem resoudre_total (p : Puzzle) (hv : valid3 p) :
    ∃ (fuel : Nat) (r : Option (List Noeud)), resoudre p fuel = some r := by
  have hsh : shape9 p := ⟨valid3_shape3 p hv, valid3_lt p hv⟩
  have h := solveAux_total
    (stepMeasure [Noeud.init p none none] [(Noeud.init p none none).etat])
    [Noeud.init p none none] [(Noeud.init p none none).etat]
    (by simp)
    (by
      intro s hsin
      rcases List.mem_singleton.mp hsin with rfl
      exact pstr_mem_univ9 p hsh)
    (by
      intro n hn
      rcases List.mem_singleton.mp hn with rfl
      exact ⟨by simp, hsh⟩)
    (Nat.le_refl _)
  obtain ⟨r, hr⟩ := Option.isSome_iff_exists.mp h
  have hres : resoudre p
      (stepMeasure [Noeud.init p none none] [(Noeud.init p none none).etat]) =
      some r := hr
  exact ⟨_, r, hres⟩

/-! ## C3: boards reachable from the goal are always solved -/

/-- C3: on any board reachable from the canonical goal board by legal moves
(in particular any output of the random shuffle, which applies legal moves
to the solved board), `resoudre` reaches `Solved`: some fuel returns a
path, and no amount of fuel can make the search fall off the loop with the
absent (`Exhausted`) result. -/
theorem C3 (p : Puzzle) (hreach : ReachableFrom goalP p) :
    (∃ (fuel : Nat) (path : List Noeud), resoudre p fuel = some (some path)) ∧
    (∀ fuel : Nat, resoudre p fuel ≠ some none) := by
  have hvgoal : valid3 goalP := by decide
  have hv : valid3 p := reachable_valid goalP hvgoal p hreach
  have hback : ReachableFrom p goalP := reachable_symm goalP hvgoal p hreach
  have hnever : ∀ fuel : Nat, resoudre p fuel ≠ some none := by
    intro fuel hcontra
    have hcontra' : solveAux fuel [Noeud.init p none none]
        [(Noeud.init p none none).etat] = some none := hcontra
    obtain ⟨rsF, hsubF, hclosedF⟩ := solveAux_exhaust fuel _ _
      (by
        intro n hn
        rcases List.mem_singleton.mp hn with rfl
        exact hv)
      (by
        intro s hsin
        rcases List.mem_singleton.mp hsin with rfl
        exact Or.inl ⟨Noeud.init p none none, by simp, rfl⟩)
      hcontra'
    have hkeys : ∀ b, ReachableFrom p b → b.pstr ∈ rsF := by
      intro b hb
      induction hb with
      | base => exact hsubF p.pstr (List.mem_singleton.mpr rfl)
      | @step b2 m hr hm ihb =>
        obtain ⟨c, hvc, hcs, hcres, hcsucc⟩ := hclosedF _ ihb
        have hvb2 : valid3 b2 := reachable_valid p hv b2 hr
        have hceq : c = b2 := puzzle_eq_of_pstr c b2 hvc hvb2 hcs
        subst hceq
        exact hcsucc m hm
    have hgoalkey := hkeys goalP hback
    obtain ⟨c, hvc, hcs, hcres, -⟩ := hclosedF _ hgoalkey
    have hceq : c = goalP := puzzle_eq_of_pstr c goalP hvc hvgoal hcs
    rw [hceq] at hcres
    exact absurd hcres (by decide)
  obtain ⟨fuel, r, hr⟩ := resoudre_total p hv
  cases r with
  | none => exact absurd hr (hnever fuel)
  | some path => exact ⟨⟨fuel, path, hr⟩, hnever⟩

/-- C3 witness: the goal board itself is reachable in zero moves. -/
theorem C3_witness : ∃ (fuel : Nat) (path : List Noeud),
    resoudre goalP fuel = some (some path) :=
  (C3 goalP ReachableFrom.base).1

/-! ## C4: the returned path need not be shortest -/

/-- Run a sequence of moves, requiring each to be a legal move of the
current board. -/
def applySeq : Puzzle → List Mouvement → Option Puzzle
  | p, [] => some p
  | p, m :: ms => if m ∈ p.actions then applySeq (m.run p) ms else none

/-- C4: a concrete valid, solvable board on which `resoudre` returns a path
of 12 moves (13 nodes) although a legal 10-move sequence reaches the goal:
once a state is visited it is never re-inserted with a lower `g`, so the
search is not optimal. -/
theorem C4 : ∃ (p : Puzzle) (fuel : Nat) (path : List Noeud) (ms : List Mouvement),
    valid3 p ∧ resoudre p fuel = some (some path) ∧
    (∃ q : Puzzle, applySeq p ms = some q ∧ q.est_resolu = true) ∧
    ms.length + 1 < path.length := by
  have hlen : (resoudre ⟨3, [[1, 3, 5], [4, 0, 8], [7, 6, 2]]⟩ 32).map
      (Option.map List.length) = some (some 13) := by rfl
  cases hr : resoudre ⟨3, [[1, 3, 5], [4, 0, 8], [7, 6, 2]]⟩ 32 with
  | none => rw [hr] at hlen; simp at hlen
  | some r =>
    cases r with
    | none => rw [hr] at hlen; simp at hlen
    | some path =>
      rw [hr] at hlen
      simp at hlen
      refine ⟨⟨3, [[1, 3, 5], [4, 0, 8], [7, 6, 2]]⟩, 32, path,
        [⟨(1, 2), (1, 1), "D"⟩, ⟨(2, 2), (1, 2), "B"⟩, ⟨(2, 1), (2, 2), "G"⟩,
         ⟨(1, 1), (2, 1), "H"⟩, ⟨(1, 2), (1, 1), "D"⟩, ⟨(0, 2), (1, 2), "H"⟩,
         ⟨(0, 1), (0, 2), "G"⟩, ⟨(1, 1), (0, 1), "B"⟩, ⟨(1, 2), (1, 1), "D"⟩,
         ⟨(2, 2), (1, 2), "B"⟩],
        by decide, hr, ⟨⟨3, [[1, 2, 3], [4, 5, 6], [7, 8, 0]]⟩, by decide, by decide⟩, ?_⟩
      rw [hlen]
      simp
